import Mathlib

/-!
# Verification of the pkgsite module-ingestion core

This file gives a shallow embedding, in Lean 4, of the license-detection
pass (`internal/license/detect.go`) and of the module-store write path of
the pkgsite ingestion pipeline, and proves the specification's claims
about them.

* The license scanner (`licenseFileNames`, `isVendoredFile`, `Detect`)
  is translated directly from `internal/license/detect.go`.  The external
  license classifier (`licensecheck.Cover`) and the path validity check
  (`module.CheckFilePath`) are injected as parameters, mirroring the
  pluggable-capability contract of the spec.
* The module store (`InsertModule` and the read accessors), the version
  key engine, and the text sanitizer are not part of the provided source
  tree (only their tests are), so they are modelled from the spec; each
  such definition says so in its doc comment.
-/

namespace Pkgsite

/-! ## Basic string helpers (Go `path` / `strings` semantics) -/

/-- `goPathBase` is Go's `path.Base`: the last element of a slash-separated
path, after trailing slashes are removed; `"."` for the empty path, `"/"`
for a path that consists entirely of slashes. -/
def goPathBase (p : String) : String :=
  if p = "" then "." else
  let cs := (p.toList.reverse.dropWhile (fun c => c = '/')).reverse
  let last := (cs.reverse.takeWhile (fun c => c ≠ '/')).reverse
  if last = [] then "/" else String.mk last

/-- First index at which `pat` occurs as a contiguous sublist of `s`
(Go's `strings.Index`), or `none`. -/
def firstSubIdx (pat : List Char) : List Char → Option Nat
  | [] => if pat = [] then some 0 else none
  | c :: rest =>
      if pat.isPrefixOf (c :: rest) then some 0
      else (firstSubIdx pat rest).map (· + 1)

/-- Go's `strings.Contains` on char lists. -/
def containsSub (pat s : List Char) : Bool :=
  (firstSubIdx pat s).isSome

/-- Go's `strings.TrimPrefix`: drop `pre` from the front of `s` when it is
a prefix, otherwise return `s` unchanged. -/
def trimPrefix (pre s : String) : String :=
  if pre.toList.isPrefixOf s.toList then String.mk (s.toList.drop pre.toList.length)
  else s

example : goPathBase "a/b/LICENSE" = "LICENSE" := by decide
example : goPathBase "LICENSE" = "LICENSE" := by decide
example : goPathBase "" = "." := by decide
example : goPathBase "///" = "/" := by decide
example : trimPrefix "m@v1/" "m@v1/LICENSE" = "LICENSE" := by decide

/-! ## License scanner data model (from `internal/license/detect.go`) -/

/-- One entry of the module zip archive: a path, the declared uncompressed
size, and the raw byte contents (`archive/zip`'s `File`, with the contents
already materialised since reads are synchronous). -/
structure ZipFile where
  name : String
  uncompressedSize : Nat
  contents : List Nat
  deriving DecidableEq, Repr

/-- One license-type match reported by the classifier
(`licensecheck.Match`): a type name and a per-match confidence percent. -/
structure LCMatch where
  name : String
  percent : ℚ
  deriving DecidableEq, Repr

/-- The classifier's coverage report (`licensecheck.Coverage`): overall
percent of the file covered by license text, plus the individual matches. -/
structure LCCoverage where
  percent : ℚ
  Match : List LCMatch
  deriving DecidableEq, Repr

/-- License metadata: the recognized type names and the file path,
relative to the contents directory (from `internal/license`). -/
structure Metadata where
  types : List String
  filePath : String
  deriving DecidableEq, Repr

/-- A license record: metadata plus raw contents (empty for a
metadata-only record, mirroring Go's nil slice). -/
structure License where
  metadata : Metadata
  contents : List Nat
  deriving DecidableEq, Repr

/-- `classifyThreshold` from detect.go: minimum per-match confidence. -/
def classifyThreshold : ℚ := 90

/-- `coverageThreshold` from detect.go: minimum coverage percent. -/
def coverageThreshold : ℚ := 90

/-- `maxLicenseSize` from detect.go: maximum license file size in bytes. -/
def maxLicenseSize : Nat := 10000000

/-- `licenseFileNames` from detect.go: the recognized license file base
names (case-sensitive). -/
def licenseFileNames (n : String) : Bool :=
  n = "LICENSE" || n = "LICENSE.md" || n = "LICENSE.txt" ||
  n = "COPYING" || n = "COPYING.md" || n = "COPYING.txt"

/-- `isVendoredFile` from detect.go: true when the file is in a proper
subdirectory nested under a `vendor` directory.  `vendor/LICENSE` is not
vendored; `vendor/foo/LICENSE` is. -/
def isVendoredFile (name : String) : Bool :=
  let cs := name.toList
  if ("vendor/".toList).isPrefixOf cs then
    (cs.drop ("vendor/".toList).length).contains '/'
  else
    match firstSubIdx ("/vendor/".toList) cs with
    | some i => (cs.drop (i + ("/vendor/".toList).length)).contains '/'
    | none => false

example : isVendoredFile "vendor/LICENSE" = false := by decide
example : isVendoredFile "vendor/foo/LICENSE" = true := by decide
example : isVendoredFile "a/vendor/LICENSE" = false := by decide
example : isVendoredFile "a/vendor/b/LICENSE" = true := by decide
example : isVendoredFile "LICENSE" = false := by decide

/-! ## The `Detect` function (from `internal/license/detect.go`)

`Detect` is parameterised by the two external capabilities it uses:
`checkFilePath` models `module.CheckFilePath` (true = valid path), and
`classify` models `licensecheck.Cover` (`none` = the classifier's
`ok == false`). -/

/-- The name filter of Detect's loop: keep entries whose base name is a
recognized license file name and that are not vendored. -/
def isCandidate (f : ZipFile) : Bool :=
  licenseFileNames (goPathBase f.name) && !isVendoredFile f.name

/-- The contents-root prefix Detect requires of every candidate:
`contentsDir + "/"`, or `""` when `contentsDir` is empty. -/
def rootPrefix (contentsDir : String) : String :=
  if contentsDir = "" then "" else contentsDir ++ "/"

/-- Error message for a candidate failing `module.CheckFilePath`. -/
def checkFilePathMsg (name : String) : String :=
  "module.CheckFilePath(\"" ++ name ++ "\"): invalid file path"

/-- Error message for a candidate found outside the contents root. -/
def outsidePathMsg (name contentsDir : String) : String :=
  "potential license file \"" ++ name ++ "\" found outside of the expected path " ++ contentsDir

/-- Error message for a candidate whose declared size is too large. -/
def tooLargeMsg (name : String) : String :=
  "potential license file \"" ++ name ++ "\" exceeds maximum uncompressed size 10000000"

/-- The three validity checks Detect applies to a surviving candidate, in
order: path validity, contents-root prefix, size ceiling. -/
def passesChecks (checkFilePath : String → Bool) (contentsDir : String) (f : ZipFile) : Bool :=
  checkFilePath f.name && (rootPrefix contentsDir).toList.isPrefixOf f.name.toList &&
    decide (f.uncompressedSize ≤ maxLicenseSize)

/-- The confident type names of a coverage report: names of matches whose
per-match confidence meets `classifyThreshold` (detect.go's inner loop). -/
def confidentTypes (cov : LCCoverage) : List String :=
  (cov.Match.filter (fun m => classifyThreshold ≤ m.percent)).map (fun m => m.name)

/-- The body of Detect's loop for one validated candidate, producing
exactly one license record: a matched record (deduplicated, sorted types,
raw contents attached) when coverage and confidence thresholds are met and
at least one type survives, and a metadata-only record otherwise. -/
def processFile (classify : List Nat → Option LCCoverage) (pfx : String) (f : ZipFile) :
    License :=
  let filePath := trimPrefix pfx f.name
  match classify f.contents with
  | some cov =>
      if coverageThreshold ≤ cov.percent then
        let typs := (List.insertionSort (· ≤ ·) (confidentTypes cov).dedup)
        if typs = [] then ⟨⟨[], filePath⟩, []⟩
        else ⟨⟨typs, filePath⟩, f.contents⟩
      else ⟨⟨[], filePath⟩, []⟩
  | none => ⟨⟨[], filePath⟩, []⟩

/-- `Detect` from detect.go: walk the archive entries in order, skip
non-candidates, fail fast on an invalid candidate, and emit one license
record per surviving candidate. -/
def Detect (checkFilePath : String → Bool) (classify : List Nat → Option LCCoverage)
    (contentsDir : String) : List ZipFile → Except String (List License)
  | [] => .ok []
  | f :: rest =>
      if isCandidate f then
        if !checkFilePath f.name then .error (checkFilePathMsg f.name)
        else if !(rootPrefix contentsDir).toList.isPrefixOf f.name.toList then
          .error (outsidePathMsg f.name contentsDir)
        else if !decide (f.uncompressedSize ≤ maxLicenseSize) then
          .error (tooLargeMsg f.name)
        else
          match Detect checkFilePath classify contentsDir rest with
          | .ok ls => .ok (processFile classify (rootPrefix contentsDir) f :: ls)
          | .error e => .error e
      else
        Detect checkFilePath classify contentsDir rest

/-! ## Claims about `Detect` -/

/-- C10: Detect behaves identically on an archive and on the archive
restricted to its license-named, non-vendored entries. -/
theorem Detect_eq_detect_filter (check : String → Bool)
    (classify : List Nat → Option LCCoverage) (dir : String) (files : List ZipFile) :
    Detect check classify dir files = Detect check classify dir (files.filter isCandidate) := by
  induction files with
  | nil => rfl
  | cons f rest ih =>
      cases hc : isCandidate f with
      | false => simp only [Detect, hc, List.filter_cons, if_neg, Bool.false_eq_true,
          not_false_iff, ite_false, cond_false, ih]
      | true =>
          simp only [Detect, hc, List.filter_cons, ite_true, cond_true, ih]

/-- The matched-license condition of detect.go: the classifier reports a
coverage (`ok`), overall coverage meets the threshold, and at least one
per-match confidence meets the threshold. -/
def isMatched (classify : List Nat → Option LCCoverage) (f : ZipFile) : Bool :=
  match classify f.contents with
  | some cov => decide (coverageThreshold ≤ cov.percent) && !(confidentTypes cov).isEmpty
  | none => false

theorem detect_ok_of_passing (check : String → Bool)
    (classify : List Nat → Option LCCoverage) (dir : String) (files : List ZipFile)
    (hall : ∀ f ∈ files, isCandidate f = true → passesChecks check dir f = true) :
    Detect check classify dir files =
      .ok ((files.filter isCandidate).map (processFile classify (rootPrefix dir))) := by
  induction files with
  | nil => rfl
  | cons f rest ih =>
      have ihr := ih (fun g hg => hall g (List.mem_cons_of_mem f hg))
      cases hc : isCandidate f with
      | false => simpa only [Detect, hc, List.filter_cons, Bool.false_eq_true, if_false,
          ite_false] using ihr
      | true =>
          have hp := hall f (List.mem_cons_self f rest) hc
          simp only [passesChecks, Bool.and_eq_true] at hp
          obtain ⟨⟨h1, h2⟩, h3⟩ := hp
          simp only [Detect, hc, List.filter_cons, ite_true, h1, h2, h3, Bool.not_true,
            Bool.false_eq_true, if_false, ite_false, ihr, List.map_cons]

/-- The per-file shape of a matched record, exactly as detect.go builds
it. -/
theorem processFile_matched (classify : List Nat → Option LCCoverage) (pfx : String)
    (f : ZipFile) (hm : isMatched classify f = true) :
    ∃ cov, classify f.contents = some cov ∧ coverageThreshold ≤ cov.percent ∧
      (processFile classify pfx f).contents = f.contents ∧
      (processFile classify pfx f).metadata.filePath = trimPrefix pfx f.name ∧
      (processFile classify pfx f).metadata.types.Nodup ∧
      List.Sorted (· ≤ ·) (processFile classify pfx f).metadata.types ∧
      ∀ t, t ∈ (processFile classify pfx f).metadata.types ↔ t ∈ confidentTypes cov := by
  unfold isMatched at hm
  cases hcl : classify f.contents with
  | none => rw [hcl] at hm; exact absurd hm (by simp)
  | some cov =>
      rw [hcl] at hm
      simp only [Bool.and_eq_true, decide_eq_true_eq, Bool.not_eq_true'] at hm
      obtain ⟨hcov, hne'⟩ := hm
      have hne : confidentTypes cov ≠ [] := by
        intro h
        rw [h] at hne'
        exact absurd hne' (by decide)
      have hdne : (confidentTypes cov).dedup ≠ [] := by
        intro h
        exact hne ((List.dedup_eq_nil _).mp h)
      have hsne : List.insertionSort (· ≤ ·) (confidentTypes cov).dedup ≠ [] := by
        intro h
        have := List.perm_insertionSort (· ≤ ·) (confidentTypes cov).dedup
        rw [h] at this
        exact hdne (List.Perm.nil_eq this).symm
      have hpf : processFile classify pfx f =
          ⟨⟨List.insertionSort (· ≤ ·) (confidentTypes cov).dedup,
            trimPrefix pfx f.name⟩, f.contents⟩ := by
        simp only [processFile, hcl]
        rw [if_pos hcov, if_neg hsne]
      have hperm := List.perm_insertionSort (α := String) (· ≤ ·) (confidentTypes cov).dedup
      refine ⟨cov, rfl, hcov, ?_, ?_, ?_, ?_, ?_⟩
      · rw [hpf]
      · rw [hpf]
      · rw [hpf]
        exact hperm.nodup_iff.mpr (List.nodup_dedup _)
      · rw [hpf]
        exact List.sorted_insertionSort (· ≤ ·) _
      · intro t
        rw [hpf]
        exact (hperm.mem_iff).trans List.mem_dedup

/-- The per-file shape of an unmatched (metadata-only) record. -/
theorem processFile_unmatched (classify : List Nat → Option LCCoverage) (pfx : String)
    (f : ZipFile) (hm : isMatched classify f = false) :
    processFile classify pfx f = ⟨⟨[], trimPrefix pfx f.name⟩, []⟩ := by
  unfold isMatched at hm
  cases hcl : classify f.contents with
  | none => simp [processFile, hcl]
  | some cov =>
      rw [hcl] at hm
      have hm' : (decide (coverageThreshold ≤ cov.percent)
          && !(confidentTypes cov).isEmpty) = false := hm
      by_cases hcov : coverageThreshold ≤ cov.percent
      · have hemp : confidentTypes cov = [] := by
          rw [decide_eq_true hcov, Bool.true_and] at hm'
          rcases h : confidentTypes cov with _ | ⟨a, l⟩
          · rfl
          · rw [h] at hm'
            simp at hm'
        simp [processFile, hcl, hemp, ite_self, List.dedup_nil]
      · simp [processFile, hcl, if_neg hcov]

/-- C1: when every license-named, non-vendored entry passes validation,
Detect succeeds and emits exactly one License record per such entry, in
order: a matched record (raw contents attached; types are the
deduplicated confident type names, sorted) when the classifier clears
both thresholds, and a metadata-only record (path only, empty types, no
contents) otherwise — no surviving candidate is dropped. -/
theorem Detect_one_license_per_candidate (check : String → Bool)
    (classify : List Nat → Option LCCoverage) (dir : String) (files : List ZipFile)
    (hall : ∀ f ∈ files, isCandidate f = true → passesChecks check dir f = true) :
    Detect check classify dir files =
      .ok ((files.filter isCandidate).map (processFile classify (rootPrefix dir))) ∧
    (∀ f, isMatched classify f = true →
      ∃ cov, classify f.contents = some cov ∧ coverageThreshold ≤ cov.percent ∧
        (processFile classify (rootPrefix dir) f).contents = f.contents ∧
        (processFile classify (rootPrefix dir) f).metadata.filePath
          = trimPrefix (rootPrefix dir) f.name ∧
        (processFile classify (rootPrefix dir) f).metadata.types.Nodup ∧
        List.Sorted (· ≤ ·) (processFile classify (rootPrefix dir) f).metadata.types ∧
        ∀ t, t ∈ (processFile classify (rootPrefix dir) f).metadata.types
          ↔ t ∈ confidentTypes cov) ∧
    (∀ f, isMatched classify f = false →
      processFile classify (rootPrefix dir) f
        = ⟨⟨[], trimPrefix (rootPrefix dir) f.name⟩, []⟩) :=
  ⟨detect_ok_of_passing check classify dir files hall,
   fun f => processFile_matched classify (rootPrefix dir) f,
   fun f => processFile_unmatched classify (rootPrefix dir) f⟩

theorem firstSubIdx_append_isSome (pat : List Char) :
    ∀ a b : List Char, (firstSubIdx pat (a ++ pat ++ b)).isSome = true := by
  intro a
  induction a with
  | nil =>
      intro b
      simp only [List.nil_append]
      have hpre : pat.isPrefixOf (pat ++ b) = true :=
        List.isPrefixOf_iff_prefix.mpr ⟨b, rfl⟩
      cases hpb : pat ++ b with
      | nil =>
          have hp : pat = [] := (List.append_eq_nil.mp hpb).1
          rw [hp]
          rfl
      | cons c r =>
          rw [hpb] at hpre
          simp [firstSubIdx, hpre]
  | cons x a' ih =>
      intro b
      simp only [List.cons_append, firstSubIdx]
      split
      · rfl
      · simpa using ih b

theorem containsSub_of_append (pat a b : List Char) :
    containsSub pat (a ++ pat ++ b) = true := by
  unfold containsSub
  exact firstSubIdx_append_isSome pat a b

theorem name_in_checkFilePathMsg (n : String) :
    containsSub n.toList (checkFilePathMsg n).toList = true := by
  unfold checkFilePathMsg
  show containsSub n.toList
    (("module.CheckFilePath(\"" ++ n) ++ "\"): invalid file path").data = true
  rw [String.data_append, String.data_append]
  exact containsSub_of_append n.toList _ _

theorem name_in_outsidePathMsg (n dir : String) :
    containsSub n.toList (outsidePathMsg n dir).toList = true := by
  unfold outsidePathMsg
  show containsSub n.toList
    ((("potential license file \"" ++ n) ++ "\" found outside of the expected path ")
      ++ dir).data = true
  rw [String.data_append, String.data_append, String.data_append, List.append_assoc]
  exact containsSub_of_append n.toList _ _

theorem name_in_tooLargeMsg (n : String) :
    containsSub n.toList (tooLargeMsg n).toList = true := by
  unfold tooLargeMsg
  show containsSub n.toList
    (("potential license file \"" ++ n)
      ++ "\" exceeds maximum uncompressed size 10000000").data = true
  rw [String.data_append, String.data_append]
  exact containsSub_of_append n.toList _ _

/-- C4: if any license-named, non-vendored entry fails the path-validity
check, lies outside the contents root, or exceeds the size ceiling, then
Detect returns an error whose message contains the offending path, and
returns no license records at all. -/
theorem Detect_error_on_invalid_candidate (check : String → Bool)
    (classify : List Nat → Option LCCoverage) (dir : String) (files : List ZipFile)
    (hbad : ∃ f ∈ files, isCandidate f = true ∧ passesChecks check dir f = false) :
    ∃ g msg, g ∈ files ∧ isCandidate g = true ∧ passesChecks check dir g = false ∧
      Detect check classify dir files = .error msg ∧
      containsSub g.name.toList msg.toList = true := by
  induction files with
  | nil =>
      obtain ⟨f, hf, _⟩ := hbad
      exact absurd hf (List.not_mem_nil f)
  | cons f rest ih =>
      cases hc : isCandidate f with
      | false =>
          obtain ⟨g, hg, hgc, hgp⟩ := hbad
          have hgr : g ∈ rest := by
            rcases List.mem_cons.mp hg with rfl | h
            · rw [hc] at hgc
              exact absurd hgc (by decide)
            · exact h
          obtain ⟨g', msg, hm', hc', hp', heq, hcont⟩ := ih ⟨g, hgr, hgc, hgp⟩
          refine ⟨g', msg, List.mem_cons_of_mem f hm', hc', hp', ?_, hcont⟩
          simpa only [Detect, hc, Bool.false_eq_true, if_false, ite_false] using heq
      | true =>
          cases hpass : passesChecks check dir f with
          | false =>
              by_cases h1 : check f.name = true
              · by_cases h2 : (rootPrefix dir).toList.isPrefixOf f.name.toList = true
                · have h3 : decide (f.uncompressedSize ≤ maxLicenseSize) = false := by
                    unfold passesChecks at hpass
                    rw [h1, h2] at hpass
                    simpa using hpass
                  refine ⟨f, tooLargeMsg f.name, List.mem_cons_self f rest, hc, hpass, ?_,
                    name_in_tooLargeMsg f.name⟩
                  simp only [Detect, hc, h1, h2, h3, Bool.not_true, Bool.not_false,
                    Bool.false_eq_true, if_false, ite_false, if_true, ite_true]
                · have h2' : (rootPrefix dir).toList.isPrefixOf f.name.toList = false :=
                    Bool.not_eq_true _ ▸ Bool.of_not_eq_true h2
                  refine ⟨f, outsidePathMsg f.name dir, List.mem_cons_self f rest, hc, hpass, ?_,
                    name_in_outsidePathMsg f.name dir⟩
                  simp only [Detect, hc, h1, h2', Bool.not_true, Bool.not_false,
                    Bool.false_eq_true, if_false, ite_false, if_true, ite_true]
              · have h1' : check f.name = false := Bool.of_not_eq_true h1
                refine ⟨f, checkFilePathMsg f.name, List.mem_cons_self f rest, hc, hpass, ?_,
                  name_in_checkFilePathMsg f.name⟩
                simp only [Detect, hc, h1', Bool.not_false, if_true, ite_true]
          | true =>
              obtain ⟨g, hg, hgc, hgp⟩ := hbad
              have hgr : g ∈ rest := by
                rcases List.mem_cons.mp hg with rfl | h
                · rw [hpass] at hgp
                  exact absurd hgp (by decide)
                · exact h
              obtain ⟨g', msg, hm', hc', hp', heq, hcont⟩ := ih ⟨g, hgr, hgc, hgp⟩
              refine ⟨g', msg, List.mem_cons_of_mem f hm', hc', hp', ?_, hcont⟩
              have hp3 := hpass
              unfold passesChecks at hp3
              simp only [Bool.and_eq_true] at hp3
              obtain ⟨⟨h1, h2⟩, h3⟩ := hp3
              simp only [Detect, hc, h1, h2, h3, Bool.not_true, Bool.false_eq_true,
                if_false, ite_false, if_true, ite_true, heq]

/-! ## Claim C5: characterisation of `isVendoredFile` -/

theorem firstSubIdx_some_spec (pat : List Char) :
    ∀ (s : List Char) (i : Nat), firstSubIdx pat s = some i →
      ∃ a b, s = a ++ pat ++ b ∧ a.length = i := by
  intro s
  induction s with
  | nil =>
      intro i h
      unfold firstSubIdx at h
      by_cases hp : pat = []
      · rw [if_pos hp] at h
        exact ⟨[], [], by simp [hp], by simpa using Option.some_inj.mp h⟩
      · rw [if_neg hp] at h
        exact absurd h (by simp)
  | cons c r ih =>
      intro i h
      unfold firstSubIdx at h
      by_cases hp : pat.isPrefixOf (c :: r) = true
      · rw [if_pos hp] at h
        obtain ⟨b, hb⟩ := List.isPrefixOf_iff_prefix.mp hp
        exact ⟨[], b, by simp [hb.symm], by simpa using Option.some_inj.mp h⟩
      · rw [if_neg hp] at h
        cases hr : firstSubIdx pat r with
        | none => rw [hr] at h; exact absurd h (by simp)
        | some j =>
            rw [hr] at h
            obtain ⟨a, b, hab, hlen⟩ := ih j hr
            refine ⟨c :: a, b, by simp [hab], ?_⟩
            simp only [Option.map_some'] at h
            simp [hlen, Option.some_inj.mp h]

theorem firstSubIdx_min (pat : List Char) :
    ∀ (s : List Char) (i : Nat), firstSubIdx pat s = some i →
      ∀ a b, s = a ++ pat ++ b → i ≤ a.length := by
  intro s
  induction s with
  | nil =>
      intro i h a b hab
      unfold firstSubIdx at h
      by_cases hp : pat = []
      · rw [if_pos hp] at h
        have h0 : 0 = i := Option.some_inj.mp h
        omega
      · rw [if_neg hp] at h
        exact absurd h (by simp)
  | cons c r ih =>
      intro i h a b hab
      unfold firstSubIdx at h
      by_cases hp : pat.isPrefixOf (c :: r) = true
      · rw [if_pos hp] at h
        have : i = 0 := (Option.some_inj.mp h).symm
        omega
      · rw [if_neg hp] at h
        cases a with
        | nil =>
            exfalso
            apply hp
            apply List.isPrefixOf_iff_prefix.mpr
            exact ⟨b, by simpa using hab.symm⟩
        | cons x a' =>
            simp only [List.cons_append, List.cons.injEq] at hab
            cases hr : firstSubIdx pat r with
            | none => rw [hr] at h; exact absurd h (by simp)
            | some j =>
                rw [hr] at h
                simp only [Option.map_some'] at h
                have hj := ih j hr a' b hab.2
                have : j + 1 = i := Option.some_inj.mp h
                simp only [List.length_cons]
                omega

theorem mem_drop_of_le {α : Type} {x : α} {l : List α} {i j : Nat} (hij : i ≤ j)
    (h : x ∈ l.drop j) : x ∈ l.drop i := by
  have heq : (l.drop i).drop (j - i) = l.drop j := by
    rw [List.drop_drop]
    congr 1
    omega
  rw [← heq] at h
  exact List.mem_of_mem_drop h

/-- The spec's reading of "vendored": the path lies at least one path
level below a directory named `vendor` — there is a `vendor/` path
component (at the start of the path or after a slash) whose remainder
contains a further slash. -/
def VendoredSpec (p : List Char) : Prop :=
  (∃ suf, p = "vendor/".toList ++ suf ∧ '/' ∈ suf) ∨
  (∃ pre suf, p = pre ++ "/vendor/".toList ++ suf ∧ '/' ∈ suf)

/-- C5: `isVendoredFile` holds exactly when the path lies at least one
path level below a `vendor` directory; a file directly inside a vendor
directory is not excluded. -/
theorem isVendoredFile_iff_vendoredSpec (p : String) :
    isVendoredFile p = true ↔ VendoredSpec p.toList := by
  unfold isVendoredFile VendoredSpec
  by_cases hpre : ("vendor/".toList).isPrefixOf p.toList = true
  · simp only [hpre, if_true, ite_true]
    obtain ⟨t, ht⟩ := List.isPrefixOf_iff_prefix.mp hpre
    constructor
    · intro h
      have hmem : '/' ∈ p.toList.drop ("vendor/".toList).length := List.elem_iff.mp h
      have hdrop : p.toList.drop ("vendor/".toList).length = t := by
        rw [← ht, List.drop_left]
      refine Or.inl ⟨p.toList.drop ("vendor/".toList).length, ?_, hmem⟩
      rw [hdrop]
      exact ht.symm
    · rintro (⟨suf, heq, hmem⟩ | ⟨pre, suf, heq, hmem⟩)
      · apply List.elem_iff.mpr
        rw [heq, List.drop_left]
        exact hmem
      · apply List.elem_iff.mpr
        have hsuf : p.toList.drop (pre.length + ("/vendor/".toList).length) = suf := by
          rw [heq]
          have : (pre ++ "/vendor/".toList).length
              = pre.length + ("/vendor/".toList).length := by
            simp
          rw [← this, List.drop_left]
        apply mem_drop_of_le (i := ("vendor/".toList).length)
          (j := pre.length + ("/vendor/".toList).length)
        · show 7 ≤ pre.length + 8
          omega
        · rw [hsuf]
          exact hmem
  · have hpre' : ("vendor/".toList).isPrefixOf p.toList = false := by
      cases h : ("vendor/".toList).isPrefixOf p.toList
      · rfl
      · exact absurd h hpre
    simp only [hpre', Bool.false_eq_true, if_false, ite_false]
    cases hidx : firstSubIdx ("/vendor/".toList) p.toList with
    | none =>
        simp only []
        constructor
        · intro h
          exact absurd h (by simp)
        · rintro (⟨suf, heq, hmem⟩ | ⟨pre, suf, heq, hmem⟩)
          · exfalso
            apply hpre
            apply List.isPrefixOf_iff_prefix.mpr
            exact ⟨suf, heq.symm⟩
          · exfalso
            have := firstSubIdx_append_isSome ("/vendor/".toList) pre suf
            rw [← heq, hidx] at this
            exact absurd this (by simp)
    | some i =>
        simp only []
        constructor
        · intro h
          obtain ⟨a, b, hab, hlen⟩ := firstSubIdx_some_spec _ _ _ hidx
          have hb : p.toList.drop (i + ("/vendor/".toList).length) = b := by
            rw [hab]
            have : (a ++ "/vendor/".toList).length
                = i + ("/vendor/".toList).length := by
              simp [hlen]
            rw [← this, List.drop_left]
          refine Or.inr ⟨a, b, hab, ?_⟩
          rw [← hb]
          exact List.elem_iff.mp h
        · rintro (⟨suf, heq, hmem⟩ | ⟨pre, suf, heq, hmem⟩)
          · exfalso
            apply hpre
            apply List.isPrefixOf_iff_prefix.mpr
            exact ⟨suf, heq.symm⟩
          · have hle : i ≤ pre.length := firstSubIdx_min _ _ _ hidx pre suf heq
            have hsuf : p.toList.drop (pre.length + ("/vendor/".toList).length) = suf := by
              rw [heq]
              have : (pre ++ "/vendor/".toList).length
                  = pre.length + ("/vendor/".toList).length := by
                simp
              rw [← this, List.drop_left]
            apply List.elem_iff.mpr
            apply mem_drop_of_le (j := pre.length + ("/vendor/".toList).length)
            · omega
            · rw [hsuf]
              exact hmem

/-! ## Version Key Engine (spec §4.3)

The engine itself is not part of the provided source tree (only its test,
`TestPostgres_ReadAndWriteModuleOtherColumns`, is), so it is modelled from
the spec: a version string is decomposed into numeric release components
and tagged prerelease identifiers, and keys are compared lexicographically
segment by segment, numeric components numerically, with a prerelease
sorting strictly before its release. -/

/-- Modelled from the spec: one dot-separated prerelease identifier of the
version sort key — a numeric identifier (compared numerically) or an
alphanumeric one (compared lexicographically); "prerelease identifiers
compare as tagged tuples, not raw strings". -/
inductive PreSeg where
  | num (n : Nat)
  | str (s : String)
  deriving DecidableEq, Repr

/-- Modelled from the spec: the derived, totally-ordered version sort key —
numeric release components plus the prerelease identifiers (empty for a
release version). -/
structure VersionKey where
  release : List Nat
  prerelease : List PreSeg
  deriving DecidableEq, Repr

/-- Semantic-versioning comparison of prerelease identifiers: numeric
identifiers compare numerically, alphanumeric ones lexicographically, and
numeric identifiers sort before alphanumeric ones. -/
def cmpPreSeg : PreSeg → PreSeg → Ordering
  | .num a, .num b => compare a b
  | .num _, .str _ => .lt
  | .str _, .num _ => .gt
  | .str a, .str b => compare a b

/-- Lexicographic comparison of segment lists; a strict prefix sorts
first. -/
def cmpList (c : α → α → Ordering) : List α → List α → Ordering
  | [], [] => .eq
  | [], _ :: _ => .lt
  | _ :: _, [] => .gt
  | a :: as, b :: bs =>
      match c a b with
      | .eq => cmpList c as bs
      | o => o

/-- Modelled from the spec: total comparison of version sort keys —
release components compare numerically component-wise; with equal release
components a prerelease-tagged key sorts strictly before the release key;
two prereleases compare identifier-wise. -/
def cmpKey (k1 k2 : VersionKey) : Ordering :=
  match cmpList compare k1.release k2.release with
  | .eq =>
      if k1.prerelease = [] then (if k2.prerelease = [] then .eq else .gt)
      else if k2.prerelease = [] then .lt
      else cmpList cmpPreSeg k1.prerelease k2.prerelease
  | o => o

/-- Split a char list at a separator character. -/
def splitOnC (sep : Char) : List Char → List (List Char)
  | [] => [[]]
  | c :: rest =>
      let r := splitOnC sep rest
      if c = sep then [] :: r
      else
        match r with
        | h :: t => (c :: h) :: t
        | [] => [[c]]

/-- Parse a decimal numeral; `none` unless the input is a non-empty digit
string. -/
def parseNat (cs : List Char) : Option Nat :=
  if cs ≠ [] ∧ cs.all (fun c => c.isDigit) then
    some (cs.foldl (fun acc c => acc * 10 + (c.toNat - 48)) 0)
  else none

/-- Parse one prerelease identifier: numeric identifiers become `.num`,
anything else non-empty becomes `.str`. -/
def parsePreSeg (cs : List Char) : Option PreSeg :=
  if cs = [] then none
  else if cs.all (fun c => c.isDigit) then
    (parseNat cs).map .num
  else some (.str (String.mk cs))

/-- Modelled from the spec: the Version Key Engine — derive the sort key of
a semantic version string `vMAJOR.MINOR.PATCH[-PRERELEASE]`; malformed
version strings are a permanent input error (`none`). -/
def forSortingKey (v : String) : Option VersionKey :=
  match v.toList with
  | 'v' :: rest =>
      let relCs := rest.takeWhile (fun c => c ≠ '-')
      let rest2 := rest.dropWhile (fun c => c ≠ '-')
      match (splitOnC '.' relCs).mapM parseNat with
      | some nums =>
          if nums.length = 3 then
            match rest2 with
            | [] => some ⟨nums, []⟩
            | _ :: preCs =>
                if preCs = [] then none
                else
                  match (splitOnC '.' preCs).mapM parsePreSeg with
                  | some pres => some ⟨nums, pres⟩
                  | none => none
          else none
      | none => none
  | _ => none

/-- Render a segment the way the modules table's `sort_version` column
does: numerics in decimal, alphanumerics prefixed with `~`. -/
def encodePreSeg : PreSeg → String
  | .num n => toString n
  | .str s => "~" ++ s

/-- Modelled from the spec / `sort_version` column: the textual encoding of
a version key, comma-separated. -/
def encodeKey (k : VersionKey) : String :=
  String.intercalate "," (k.release.map toString ++ k.prerelease.map encodePreSeg)

example : forSortingKey "v1.2.3-beta.4.a"
    = some ⟨[1, 2, 3], [.str "beta", .num 4, .str "a"]⟩ := by decide
example : forSortingKey "v1.2.3" = some ⟨[1, 2, 3], []⟩ := by decide
example : forSortingKey "1.2.3" = none := by decide
example : (forSortingKey "v1.2.3-beta.4.a").map encodeKey = some "1,2,3,~beta,4,~a" := by
  decide

theorem cmpList_compare_self (l : List Nat) : cmpList compare l l = .eq := by
  induction l with
  | nil => rfl
  | cons a as ih => simp [cmpList, Nat.compare_eq_eq.mpr rfl, ih]

/-- C6: the version key of a prerelease of a release version sorts
strictly before the key of that release version; the key of
`v1.2.3-beta.4.a` is rendered as `1,2,3,~beta,4,~a`. -/
theorem versionKey_prerelease_lt_release :
    (forSortingKey "v1.2.3-beta.4.a").map encodeKey = some "1,2,3,~beta,4,~a" ∧
    ∀ (s1 s2 : String) (rel : List Nat) (pre : List PreSeg), pre ≠ [] →
      forSortingKey s1 = some ⟨rel, pre⟩ → forSortingKey s2 = some ⟨rel, []⟩ →
      cmpKey ⟨rel, pre⟩ ⟨rel, []⟩ = .lt := by
  refine ⟨by decide, ?_⟩
  intro s1 s2 rel pre hpre _ _
  unfold cmpKey
  rw [cmpList_compare_self]
  simp [if_neg hpre]

/-- Witness for C6 at the spec's example pair `v1.2.3-beta.4` < `v1.2.3`. -/
theorem versionKey_prerelease_lt_release_witness :
    cmpKey ⟨[1, 2, 3], [.str "beta", .num 4]⟩ ⟨[1, 2, 3], []⟩ = .lt :=
  versionKey_prerelease_lt_release.2 "v1.2.3-beta.4" "v1.2.3" [1, 2, 3]
    [.str "beta", .num 4] (by decide) (by decide) (by decide)

/-! ## Text Sanitizer (spec §4.6)

`makeValidUnicode` is not part of the provided source tree (only its test,
`TestMakeValidUnicode`, is), so it is modelled from the spec: content
intended for a text-typed column must be made representable by removing
constructs the store cannot hold — embedded null characters — while
preserving all other content unchanged.  Content is modelled as a list of
unicode characters. -/

/-- Modelled from the spec: the persistent store's text type accepts
content exactly when it has no embedded null character. -/
def storeAccepts (s : List Char) : Bool :=
  !s.any (fun c => c = Char.ofNat 0)

/-- Modelled from the spec: the Text Sanitizer — strip the characters the
store's text type cannot hold (embedded nulls), preserving all other
content unchanged. -/
def makeValidUnicode (s : List Char) : List Char :=
  s.filter (fun c => c ≠ Char.ofNat 0)

/-- C8: sanitized content is always store-representable, and content that
is already store-representable is left identical. -/
theorem makeValidUnicode_ok (s : List Char) :
    storeAccepts (makeValidUnicode s) = true ∧
    (storeAccepts s = true → makeValidUnicode s = s) := by
  constructor
  · unfold storeAccepts makeValidUnicode
    simp only [Bool.not_eq_true', List.any_eq_false]
    intro c hc
    have := List.of_mem_filter hc
    simpa using this
  · intro h
    unfold storeAccepts at h
    unfold makeValidUnicode
    apply List.filter_eq_self.mpr
    intro c hc
    simp only [Bool.not_eq_true', List.any_eq_false] at h
    simpa using h c hc

/-- Witness for C8: a string with an embedded null is sanitized into
store-representable content, and a null-free string is left unchanged. -/
theorem makeValidUnicode_ok_witness :
    storeAccepts (makeValidUnicode ("a\x00b".toList)) = true ∧
    makeValidUnicode ("gin-gonic".toList) = "gin-gonic".toList :=
  ⟨(makeValidUnicode_ok ("a\x00b".toList)).1,
   (makeValidUnicode_ok ("gin-gonic".toList)).2 (by decide)⟩

/-! ## Module Store (spec §4.5)

`InsertModule` and the read accessors are not part of the provided source
tree (only their tests in `internal/postgres/insert_module_test.go` are),
so the store is modelled from the spec: a transactional state of keyed
rows, an upsert of the module row, full replacement of the child rows, a
newer-alternative check against ModuleVersionState before publishing into
the search-document index, and an update of ModuleVersionState. -/

/-- A package of a module (the fields the read accessors return). -/
structure Package where
  path : String
  name : String
  synopsis : String
  deriving DecidableEq, Repr

/-- A fully-parsed module handed to the store. -/
structure Module where
  modulePath : String
  version : String
  commitTime : Nat
  hasGoMod : Bool
  packages : List Package
  directories : List String
  deriving DecidableEq, Repr

/-- The stored module row: commit time, go.mod flag, derived sort key and
series path. -/
structure ModRow where
  commitTime : Nat
  hasGoMod : Bool
  sortVersion : Option VersionKey
  seriesPath : String
  deriving DecidableEq, Repr

/-- Modelled from the spec: ModuleVersionState ingestion status — ok,
not-found, or alternative (with the canonical module path it defers to). -/
inductive MVStatus where
  | ok
  | notFound
  | alternative (canonical : String)
  deriving DecidableEq, Repr

/-- Is this status the "alternative" classification? -/
def MVStatus.isAlternative : MVStatus → Bool
  | .alternative _ => true
  | _ => false

/-- Insert-or-replace in an association list (the upsert primitive of the
store). -/
def setKV {κ ν : Type} [DecidableEq κ] (k : κ) (v : ν) : List (κ × ν) → List (κ × ν)
  | [] => [(k, v)]
  | (k0, v0) :: t => if k = k0 then (k, v) :: t else (k0, v0) :: setKV k v t

/-- Lookup in an association list. -/
def lookupKV {κ ν : Type} [DecidableEq κ] (k : κ) : List (κ × ν) → Option ν
  | [] => none
  | (k0, v0) :: t => if k = k0 then some v0 else lookupKV k t

/-- The store's state: modules keyed by (module path, version); packages
and directories keyed by (module path, version, path); the denormalized
search-document index keyed by package path; ModuleVersionState keyed by
(module path, version). -/
structure DB where
  modules : List ((String × String) × ModRow)
  packages : List ((String × String × String) × Package)
  directories : List ((String × String × String) × String)
  searchDocs : List (String × (String × String))
  mvs : List ((String × String) × MVStatus)
  deriving DecidableEq, Repr

/-- The empty store. -/
def DB.empty : DB := ⟨[], [], [], [], []⟩

/-- Modelled from the spec: is `v2` a (strictly) newer version than `v1`
according to the Version Key Engine? -/
def versionNewer (v2 v1 : String) : Bool :=
  match forSortingKey v1, forSortingKey v2 with
  | some k1, some k2 => cmpKey k1 k2 = .lt
  | _, _ => false

/-- Modelled from the spec: does ModuleVersionState record some other
version of this module path, marked alternative, that the Version Key
Engine judges newer than the version being inserted?  If so the module's
packages are not published into the search-document index. -/
def hasNewerAlternative (mvs : List ((String × String) × MVStatus))
    (path version : String) : Bool :=
  mvs.any fun kv =>
    kv.1.1 = path && kv.1.2 ≠ version && kv.2.isAlternative && versionNewer kv.1.2 version

/-- Modelled from the spec: the series path — the module path with any
trailing `/vN` (N ≥ 2) major-version suffix removed. -/
def seriesPathOf (modulePath : String) : String :=
  let segs := splitOnC '/' modulePath.toList
  match segs.getLast? with
  | some ('v' :: ds) =>
      if ds ≠ [] ∧ ds.all (fun c => c.isDigit) ∧ (parseNat ds).getD 0 ≥ 2 then
        String.mk (List.intercalate ['/'] (segs.dropLast))
      else modulePath
  | _ => modulePath

example : seriesPathOf "github.com/user/repo/path/v2" = "github.com/user/repo/path" := by
  decide
example : seriesPathOf "github.com/user/repo" = "github.com/user/repo" := by decide

/-- The key scoping a child row to a (module path, version). -/
def scopedTo (path version : String) (k : String × String × String) : Bool :=
  k.1 = path && k.2.1 = version

/-- Modelled from the spec: the state transformation of a successful
`InsertModule` transaction — upsert the module row, fully replace the
package and directory rows scoped to (path, version), publish the
packages into the search-document index unless a newer alternative
version exists, and update ModuleVersionState for this (path, version).
Free-text fields pass through the Text Sanitizer. -/
def applyInsert (db : DB) (m : Module) : DB :=
  let key := (m.modulePath, m.version)
  let row : ModRow :=
    ⟨m.commitTime, m.hasGoMod, forSortingKey m.version, seriesPathOf m.modulePath⟩
  let newPkgs := m.packages.map fun p =>
    ((m.modulePath, m.version, p.path),
     ⟨p.path, p.name, String.mk (makeValidUnicode p.synopsis.toList)⟩)
  let newDirs := m.directories.map fun d => ((m.modulePath, m.version, d), d)
  let skipDocs := hasNewerAlternative db.mvs m.modulePath m.version
  { modules := setKV key row db.modules
    packages :=
      db.packages.filter (fun kv => !scopedTo m.modulePath m.version kv.1) ++ newPkgs
    directories :=
      db.directories.filter (fun kv => !scopedTo m.modulePath m.version kv.1) ++ newDirs
    searchDocs :=
      if skipDocs then db.searchDocs
      else
        db.searchDocs.filter (fun kv => !m.packages.any (fun p => p.path = kv.1)) ++
          m.packages.map (fun p => (p.path, key))
    mvs := setKV key .ok db.mvs }

/-- Modelled from the spec: the permanent error classes of the store
(`derrors`); `DBModuleInsertInvalid` rejects an invalid module. -/
inductive DErr where
  | dbModuleInsertInvalid
  | notFound
  deriving DecidableEq, Repr

/-- Modelled from the spec: `InsertModule` — reject a nil module or one
with an empty module path, empty version, or zero commit time with the
permanent invalid-input error; otherwise run the transactional upsert. -/
def InsertModule (db : DB) (om : Option Module) : Except DErr DB :=
  match om with
  | none => .error .dbModuleInsertInvalid
  | some m =>
      if m.modulePath = "" || m.version = "" || decide (m.commitTime = 0) then
        .error .dbModuleInsertInvalid
      else .ok (applyInsert db m)

/-- Modelled from the spec: `GetModuleInfo` — the module row stored for
(path, version). -/
def GetModuleInfo (db : DB) (path version : String) : Option ModRow :=
  lookupKV (path, version) db.modules

/-- Modelled from the spec: `GetPackage` — the package row stored for
(package path, module path, version). -/
def GetPackage (db : DB) (pkgPath path version : String) : Option Package :=
  lookupKV (path, version, pkgPath) db.packages

/-- Modelled from the spec: `GetDirectory` — the directory row stored for
(directory path, module path, version). -/
def GetDirectory (db : DB) (dirPath path version : String) : Option String :=
  lookupKV (path, version, dirPath) db.directories

/-- Modelled from the spec: the search-document lookup for a package
path. -/
def GetFromSearchDocuments (db : DB) (pkgPath : String) : Option (String × String) :=
  lookupKV pkgPath db.searchDocs

/-! ## Store lemmas -/

theorem setKV_idem {κ ν : Type} [DecidableEq κ] (k : κ) (v : ν) (l : List (κ × ν)) :
    setKV k v (setKV k v l) = setKV k v l := by
  induction l with
  | nil => simp [setKV]
  | cons kv t ih =>
      obtain ⟨k0, v0⟩ := kv
      by_cases hk : k = k0
      · simp [setKV, hk]
      · simp [setKV, hk, ih]

theorem lookupKV_setKV_self {κ ν : Type} [DecidableEq κ] (k : κ) (v : ν)
    (l : List (κ × ν)) : lookupKV k (setKV k v l) = some v := by
  induction l with
  | nil => simp [setKV, lookupKV]
  | cons kv t ih =>
      obtain ⟨k0, v0⟩ := kv
      by_cases hk : k = k0
      · simp [setKV, hk, lookupKV]
      · simp [setKV, hk, lookupKV, ih]

theorem any_setKV {κ ν : Type} [DecidableEq κ] (k : κ) (v : ν) (l : List (κ × ν))
    (f : κ × ν → Bool) (hf : ∀ w, f (k, w) = false) :
    (setKV k v l).any f = l.any f := by
  induction l with
  | nil => simp [setKV, hf]
  | cons kv t ih =>
      obtain ⟨k0, v0⟩ := kv
      by_cases hk : k = k0
      · subst hk
        simp [setKV, hf]
      · simp [setKV, hk, ih]

theorem filter_append_filtered {α : Type} (p : α → Bool) (old new : List α)
    (hnew : ∀ a ∈ new, p a = false) :
    ((old.filter p ++ new).filter p) ++ new = old.filter p ++ new := by
  rw [List.filter_append]
  have h1 : (old.filter p).filter p = old.filter p := by
    rw [List.filter_filter]
    apply List.filter_congr
    intro a _
    simp [Bool.and_self]
  have h2 : new.filter p = [] := by
    apply List.filter_eq_nil_iff.mpr
    intro a ha
    simp [hnew a ha]
  rw [h1, h2, List.append_nil]

theorem hasNewerAlternative_setKV (mvs : List ((String × String) × MVStatus))
    (path version : String) (st : MVStatus) :
    hasNewerAlternative (setKV (path, version) st mvs) path version
      = hasNewerAlternative mvs path version := by
  unfold hasNewerAlternative
  apply any_setKV
  intro w
  simp

theorem applyInsert_idem (db : DB) (m : Module) :
    applyInsert (applyInsert db m) m = applyInsert db m := by
  unfold applyInsert
  simp only [hasNewerAlternative_setKV]
  congr 1
  · exact setKV_idem _ _ _
  · exact filter_append_filtered _ _ _ (by
      intro a ha
      simp only [List.mem_map] at ha
      obtain ⟨p, _, hp⟩ := ha
      rw [← hp]
      simp [scopedTo])
  · exact filter_append_filtered _ _ _ (by
      intro a ha
      simp only [List.mem_map] at ha
      obtain ⟨d, _, hd⟩ := ha
      rw [← hd]
      simp [scopedTo])
  · cases hskip : hasNewerAlternative db.mvs m.modulePath m.version
    · simp only [Bool.false_eq_true, if_false, ite_false]
      exact filter_append_filtered _ _ _ (by
        intro a ha
        simp only [List.mem_map] at ha
        obtain ⟨p, hpmem, hp⟩ := ha
        rw [← hp]
        have hany : (m.packages.any fun q => decide (q.path = p.path)) = true :=
          List.any_eq_true.mpr ⟨p, hpmem, by simp⟩
        simp [hany])
    · simp
  · exact setKV_idem _ _ _

/-- C2: inserting a valid module twice succeeds both times, the second
insert is a no-op, and every read after the second insert returns exactly
what it returned after the first. -/
theorem InsertModule_idempotent (db : DB) (m : Module) (hp : m.modulePath ≠ "")
    (hv : m.version ≠ "") (hc : m.commitTime ≠ 0) :
    ∃ db1 db2, InsertModule db (some m) = .ok db1 ∧
      InsertModule db1 (some m) = .ok db2 ∧ db2 = db1 ∧
      GetModuleInfo db2 m.modulePath m.version
        = GetModuleInfo db1 m.modulePath m.version ∧
      (∀ p, GetPackage db2 p m.modulePath m.version
        = GetPackage db1 p m.modulePath m.version) ∧
      (∀ d, GetDirectory db2 d m.modulePath m.version
        = GetDirectory db1 d m.modulePath m.version) := by
  have hcond : (m.modulePath = "" || m.version = "" || decide (m.commitTime = 0)) = false := by
    simp [hp, hv, hc]
  refine ⟨applyInsert db m, applyInsert db m, ?_, ?_, rfl, rfl, fun p => rfl, fun d => rfl⟩
  · simp only [InsertModule, hcond, Bool.false_eq_true, if_false, ite_false]
  · simp only [InsertModule, hcond, Bool.false_eq_true, if_false, ite_false]
    rw [applyInsert_idem]

/-- Sample module used by the witnesses. -/
def sampleModule : Module :=
  ⟨"github.com/valid/sample", "v1.0.0", 1, true,
   [⟨"github.com/valid/sample/foo", "foo", "This is a package synopsis"⟩],
   ["github.com/valid/sample"]⟩

/-- Witness for C2: a concrete valid module inserted twice into the empty
store. -/
theorem InsertModule_idempotent_witness :
    ∃ db1 db2, InsertModule DB.empty (some sampleModule) = .ok db1 ∧
      InsertModule db1 (some sampleModule) = .ok db2 ∧ db2 = db1 ∧
      GetModuleInfo db2 sampleModule.modulePath sampleModule.version
        = GetModuleInfo db1 sampleModule.modulePath sampleModule.version ∧
      (∀ p, GetPackage db2 p sampleModule.modulePath sampleModule.version
        = GetPackage db1 p sampleModule.modulePath sampleModule.version) ∧
      (∀ d, GetDirectory db2 d sampleModule.modulePath sampleModule.version
        = GetDirectory db1 d sampleModule.modulePath sampleModule.version) :=
  InsertModule_idempotent DB.empty sampleModule (by decide) (by decide) (by decide)

/-- C3: when ModuleVersionState records a newer alternative version of the
same module path, InsertModule stores the module row but does not publish
its packages into the search-document index. -/
theorem InsertModule_newerAlternative_unsearchable (db : DB) (m : Module)
    (altV canon : String) (hp : m.modulePath ≠ "") (hv : m.version ≠ "")
    (hc : m.commitTime ≠ 0)
    (halt : ((m.modulePath, altV), MVStatus.alternative canon) ∈ db.mvs)
    (hne : altV ≠ m.version) (hnewer : versionNewer altV m.version = true)
    (hfresh : ∀ p ∈ m.packages, GetFromSearchDocuments db p.path = none) :
    ∃ db1, InsertModule db (some m) = .ok db1 ∧
      GetModuleInfo db1 m.modulePath m.version
        = some ⟨m.commitTime, m.hasGoMod, forSortingKey m.version,
            seriesPathOf m.modulePath⟩ ∧
      ∀ p ∈ m.packages, GetFromSearchDocuments db1 p.path = none := by
  have hcond : (m.modulePath = "" || m.version = "" || decide (m.commitTime = 0)) = false := by
    simp [hp, hv, hc]
  have hskip : hasNewerAlternative db.mvs m.modulePath m.version = true := by
    unfold hasNewerAlternative
    apply List.any_eq_true.mpr
    refine ⟨((m.modulePath, altV), MVStatus.alternative canon), halt, ?_⟩
    simp [MVStatus.isAlternative, hne, hnewer]
  refine ⟨applyInsert db m, ?_, ?_, ?_⟩
  · simp only [InsertModule, hcond, Bool.false_eq_true, if_false, ite_false]
  · unfold GetModuleInfo applyInsert
    exact lookupKV_setKV_self _ _ _
  · intro p hpmem
    unfold GetFromSearchDocuments applyInsert
    simp only [hskip, if_true, ite_true]
    exact hfresh p hpmem

/-- The concrete store of the newer-alternative witness: ModuleVersionState
records `example.com/Mod` at `v1.2.0` as an alternative of
`example.com/mod`. -/
def altDB : DB :=
  ⟨[], [], [], [], [(("example.com/Mod", "v1.2.0"), .alternative "example.com/mod")]⟩

/-- The concrete module of the newer-alternative witness:
`example.com/Mod` at `v1.0.0` with one package. -/
def altModule : Module :=
  ⟨"example.com/Mod", "v1.0.0", 1, true, [⟨"example.com/Mod/p", "p", "synopsis"⟩], []⟩

/-- Witness for C3 at the test's concrete scenario. -/
theorem InsertModule_newerAlternative_unsearchable_witness :
    ∃ db1, InsertModule altDB (some altModule) = .ok db1 ∧
      GetModuleInfo db1 altModule.modulePath altModule.version
        = some ⟨altModule.commitTime, altModule.hasGoMod,
            forSortingKey altModule.version, seriesPathOf altModule.modulePath⟩ ∧
      ∀ p ∈ altModule.packages, GetFromSearchDocuments db1 p.path = none :=
  InsertModule_newerAlternative_unsearchable altDB altModule "v1.2.0" "example.com/mod"
    (by decide) (by decide) (by decide) (by decide) (by decide) (by decide)
    (by intro p _; rfl)

/-- C7: a nil module, or one with an empty module path, empty version, or
zero commit time, is rejected with the permanent invalid-input error and
nothing is stored. -/
theorem InsertModule_invalid (db : DB) (om : Option Module)
    (h : om = none ∨ ∃ m, om = some m ∧
      (m.modulePath = "" ∨ m.version = "" ∨ m.commitTime = 0)) :
    InsertModule db om = .error .dbModuleInsertInvalid := by
  rcases h with rfl | ⟨m, rfl, hm⟩
  · rfl
  · have hcond : (m.modulePath = "" || m.version = "" || decide (m.commitTime = 0)) = true := by
      rcases hm with h | h | h <;> simp [h]
    simp only [InsertModule, hcond, if_true, ite_true]

/-- Witness for C7: the nil module is rejected by the empty store. -/
theorem InsertModule_invalid_witness :
    InsertModule DB.empty none = .error .dbModuleInsertInvalid :=
  InsertModule_invalid DB.empty none (Or.inl rfl)

/-! ## Witnesses for the Detect claims -/

/-- A concrete classifier for the witnesses: contents `[1]` are 95%
covered by MIT at 96% confidence; anything else is unrecognized. -/
def witClassify : List Nat → Option LCCoverage := fun c =>
  if c = [1] then some ⟨95, [⟨"MIT", 96⟩]⟩ else none

/-- Witness for C1: one valid candidate under contents root `m`. -/
theorem Detect_one_license_per_candidate_witness :
    Detect (fun _ => true) witClassify "m" [⟨"m/LICENSE", 5, [1]⟩] =
      .ok (([(⟨"m/LICENSE", 5, [1]⟩ : ZipFile)].filter isCandidate).map
        (processFile witClassify (rootPrefix "m"))) :=
  (Detect_one_license_per_candidate (fun _ => true) witClassify "m"
    [⟨"m/LICENSE", 5, [1]⟩] (by decide)).1

/-- Witness for C4: a license-named candidate at the archive root, outside
the contents root `m`, makes Detect fail with an error naming it. -/
theorem Detect_error_on_invalid_candidate_witness :
    ∃ g msg, g ∈ [(⟨"LICENSE", 5, [1]⟩ : ZipFile)] ∧ isCandidate g = true ∧
      passesChecks (fun _ => true) "m" g = false ∧
      Detect (fun _ => true) witClassify "m" [⟨"LICENSE", 5, [1]⟩] = .error msg ∧
      containsSub g.name.toList msg.toList = true :=
  Detect_error_on_invalid_candidate (fun _ => true) witClassify "m"
    [⟨"LICENSE", 5, [1]⟩] (by decide)

/-- Witness for C5: `vendor/foo/LICENSE` is vendored because `foo/LICENSE`
contains a further slash. -/
theorem isVendoredFile_iff_vendoredSpec_witness :
    isVendoredFile "vendor/foo/LICENSE" = true :=
  (isVendoredFile_iff_vendoredSpec "vendor/foo/LICENSE").mpr
    (Or.inl ⟨"foo/LICENSE".toList, by decide, by decide⟩)

/-- Witness for C10: a vendored license and a non-license file are ignored
entirely. -/
theorem Detect_eq_detect_filter_witness :
    Detect (fun _ => true) witClassify "m"
        [⟨"m/LICENSE", 5, [1]⟩, ⟨"m/vendor/x/LICENSE", 5, [1]⟩, ⟨"m/README.md", 5, []⟩] =
      Detect (fun _ => true) witClassify "m"
        ([⟨"m/LICENSE", 5, [1]⟩, ⟨"m/vendor/x/LICENSE", 5, [1]⟩,
          ⟨"m/README.md", 5, []⟩].filter isCandidate) :=
  Detect_eq_detect_filter (fun _ => true) witClassify "m"
    [⟨"m/LICENSE", 5, [1]⟩, ⟨"m/vendor/x/LICENSE", 5, [1]⟩, ⟨"m/README.md", 5, []⟩]

end Pkgsite
